import Mathlib

/-!
Shallow embedding of the iampaapa/dqn Go module over exact rationals.

Go float64 values are idealized as ℚ (so every arithmetic identity below is
about the exact field operations the code performs; IEEE rounding and
non-finite values are outside the model, and division by zero is the total
Lean division).  Go slices become `List ℚ`, gonum matrices become row lists
`List (List ℚ)`, and a Go panic becomes `none` in an `Option` result.
Randomness (package rand) is passed in explicitly: `rand.Float64()` draws
become a `ℚ` parameter and `rand.Intn` draws a `Nat` parameter.
-/

namespace Dqn

/-! ### gonum vector/matrix operations used by qnetwork.go -/

def dot (v w : List ℚ) : ℚ :=
  (List.zipWith (fun a b => a * b) v w).sum

def matVec (m : List (List ℚ)) (v : List ℚ) : List ℚ :=
  m.map (fun row => dot row v)

def vecAdd (v w : List ℚ) : List ℚ :=
  List.zipWith (fun a b => a + b) v w

def vecSub (v w : List ℚ) : List ℚ :=
  List.zipWith (fun a b => a - b) v w

def vecMulElem (v w : List ℚ) : List ℚ :=
  List.zipWith (fun a b => a * b) v w

def vecScale (c : ℚ) (v : List ℚ) : List ℚ :=
  v.map (fun a => c * a)

def outer (v w : List ℚ) : List (List ℚ) :=
  v.map (fun a => w.map (fun b => a * b))

def matScale (c : ℚ) (m : List (List ℚ)) : List (List ℚ) :=
  m.map (fun row => row.map (fun a => c * a))

def matAdd (m n : List (List ℚ)) : List (List ℚ) :=
  List.zipWith vecAdd m n

def getCol (m : List (List ℚ)) (j : Nat) : List ℚ :=
  m.map (fun row => row.getD j 0)

/-- Product of the transpose of `m` with `v`; `cols` is the column count of
`m` (the Go code allocates the receiver with length `hiddenSize`). -/
def matTvec (m : List (List ℚ)) (v : List ℚ) (cols : Nat) : List ℚ :=
  (List.range cols).map (fun j => dot (getCol m j) v)

/-! ### qnetwork.go -/

/-- Activation represents an activation function (Go type Activation). -/
def Activation : Type := ℚ → ℚ

/-- QNetwork (qnetwork.go): a two-layer network for Q-value approximation. -/
structure QNetwork where
  inputSize : Nat
  hiddenSize : Nat
  outputSize : Nat
  w1 : List (List ℚ)
  b1 : List ℚ
  w2 : List (List ℚ)
  b2 : List ℚ
  activation : ℚ → ℚ

/-- ReLU activation from qnetwork.go (the logistic and tanh activations are
transcendental and not used by any property below). -/
def ReLU (x : ℚ) : ℚ :=
  if x > 0 then x else 0

/-- Predict (qnetwork.go): `h = activation(W1·state + b1)` element-wise, then
`out = W2·h + b2`; panics (`none`) when the state length differs from
`inputSize`. -/
def QNetwork.Predict (q : QNetwork) (state : List ℚ) : Option (List ℚ) :=
  if state.length = q.inputSize then
    some (vecAdd (matVec q.w2 ((vecAdd (matVec q.w1 state) q.b1).map q.activation)) q.b2)
  else none

/-- Loss (qnetwork.go): mean squared error, guarded only by the equal-length
check; the final division by `len(predictions)` is unguarded. -/
def Loss (predictions targets : List ℚ) : Option ℚ :=
  if predictions.length = targets.length then
    some ((List.zipWith (fun p t => (p - t) * (p - t)) predictions targets).sum
      / (predictions.length : ℚ))
  else none

/-- Finite-difference step h = 1e-4 used by applyDerivative. -/
def fdStep : ℚ := 1 / 10000

/-- applyDerivative (qnetwork.go): symmetric finite difference
`(activation(x+h) - activation(x-h)) / (2h)` applied element-wise. -/
def applyDerivative (v : List ℚ) (activation : ℚ → ℚ) : List ℚ :=
  v.map (fun x => (activation (x + fdStep) - activation (x - fdStep)) / (2 * fdStep))

/-- Backward (qnetwork.go).  The gradients are
`dOut = prediction - target`, `dW2 = outer(dOut, h)`, `dB2 = dOut`,
`dH = (W2ᵀ·dOut) ⊙ applyDerivative(h)` with `h` the POST-activation hidden
vector (the code activates `h` in place before calling applyDerivative),
`dW1 = outer(dH, state)`, `dB1 = dH`.  The weight updates reproduce the
gonum calls literally: `w.Scale(-lr, dW)` REPLACES the receiver with
`-lr·dW`, so `w.Add(w, dW)` leaves `(1-lr)·dW`, while the biases use
`AddScaledVec(b, -lr, dB) = b - lr·dB`. -/
def QNetwork.Backward (q : QNetwork) (state prediction target : List ℚ)
    (learningRate : ℚ) : QNetwork :=
  let h := (vecAdd (matVec q.w1 state) q.b1).map q.activation
  let dOut := vecSub prediction target
  let dW2 := outer dOut h
  let dB2 := dOut
  let dH := vecMulElem (matTvec q.w2 dOut q.hiddenSize) (applyDerivative h q.activation)
  let dW1 := outer dH state
  let dB1 := dH
  { q with
    w2 := matAdd (matScale (-learningRate) dW2) dW2
    b2 := vecAdd q.b2 (vecScale (-learningRate) dB2)
    w1 := matAdd (matScale (-learningRate) dW1) dW1
    b1 := vecAdd q.b1 (vecScale (-learningRate) dB1) }

/-! ### replaybuffer.go -/

/-- Experience (replaybuffer.go): a single experience tuple. -/
structure Experience where
  state : List ℚ
  nextState : List ℚ
  action : ℤ
  reward : ℤ
  done : Bool
deriving DecidableEq

/-- ReplayBuffer (replaybuffer.go). -/
structure ReplayBuffer where
  buffer : List Experience
  size : Nat
deriving DecidableEq

/-- NewReplayBuffer (replaybuffer.go): empty buffer of the given capacity. -/
def NewReplayBuffer (size : Nat) : ReplayBuffer :=
  ⟨[], size⟩

/-- Add (replaybuffer.go): when `len(buffer) >= size` the code evaluates
`buffer[1:]` before appending; on an empty buffer that slice expression is
out of range in Go (panic, modelled as `none`), otherwise it drops the
oldest entry. -/
def ReplayBuffer.Add (rb : ReplayBuffer) (exp : Experience) : Option ReplayBuffer :=
  if rb.size ≤ rb.buffer.length then
    match rb.buffer with
    | [] => none
    | _ :: rest => some ⟨rest ++ [exp], rb.size⟩
  else some ⟨rb.buffer ++ [exp], rb.size⟩

/-- Iterated Add, for properties about sequences of inserts. -/
def addAll (rb : ReplayBuffer) : List Experience → Option ReplayBuffer
  | [] => some rb
  | e :: es =>
    match rb.Add e with
    | none => none
    | some rb' => addAll rb' es

/-- rand.Intn(n) given the raw draw `r`: panics (`none`) when `n = 0`,
otherwise returns a value in `[0, n)`. -/
def randIntn (r n : Nat) : Option Nat :=
  if n = 0 then none else some (r % n)

/-- Default element for in-bounds list indexing (Go indexing never reaches
the default: the index is `rand.Intn(len(buffer))`). -/
def defaultExp : Experience :=
  ⟨[], [], 0, 0, false⟩

/-- Sampling loop of Sample (replaybuffer.go): each iteration indexes the
buffer at `rand.Intn(len(buffer))`, which panics on an empty buffer. -/
def sampleLoop (buffer : List Experience) (rands : Nat → Nat) : Nat → Option (List Experience)
  | 0 => some []
  | n + 1 =>
    match randIntn (rands n) buffer.length with
    | none => none
    | some j =>
      match sampleLoop buffer rands n with
      | none => none
      | some rest => some (buffer.getD j defaultExp :: rest)

/-- Sample (replaybuffer.go): a batch of `batchSize` entries, each drawn
from the current contents by `rand.Intn(len(buffer))`. -/
def ReplayBuffer.Sample (rb : ReplayBuffer) (batchSize : Nat) (rands : Nat → Nat) :
    Option (List Experience) :=
  sampleLoop rb.buffer rands batchSize

/-! ### train.go -/

/-- DQN (train.go): the agent. -/
structure DQN where
  qNetwork : QNetwork
  replayBuffer : ReplayBuffer
  gamma : ℚ
  epsilon : ℚ
  learningRate : ℚ

/-- Max (train.go): running maximum starting from `arr[0]`, updated only on
a strictly greater value (Go panics on an empty slice; the `headD` default
is never observable because that case is `arr[0]` out of range). -/
def Max (arr : List ℚ) : ℚ :=
  arr.foldl (fun maxVal val => if val > maxVal then val else maxVal) (arr.headD 0)

/-- Loop of Argmax (train.go): scans values left to right carrying
`(maxIdx, maxVal)`, updating only on a strictly greater value. -/
def argmaxLoop : List ℚ → Nat → Nat × ℚ → Nat × ℚ
  | [], _, acc => acc
  | val :: rest, i, acc =>
    if val > acc.2 then argmaxLoop rest (i + 1) (i, val)
    else argmaxLoop rest (i + 1) acc

/-- Argmax (train.go): index of the running maximum; Go panics (`none`) on
an empty slice (`arr[0]`). -/
def Argmax : List ℚ → Option Nat
  | [] => none
  | a :: rest => some ((argmaxLoop (a :: rest) 0 (0, a)).1)

/-- Bellman target construction inside Train (train.go): the target starts
as a copy of the next-state predictions, `target[action] = reward`, and when
the transition is not terminal `target[action] += gamma * Max(nextQValues)`. -/
def bellmanTarget (nextQValues : List ℚ) (gamma : ℚ) (action : Nat) (reward : ℤ)
    (done : Bool) : List ℚ :=
  let maxNextQValue := Max nextQValues
  let target := nextQValues.set action (reward : ℚ)
  if done then target
  else target.set action (target.getD action 0 + gamma * maxNextQValue)

/-- Train (train.go): predicts next-state values, builds the Bellman target,
predicts current values and performs the backward update.  An action index
outside the target vector is a Go index panic (`none`); a state-length
mismatch propagates the Predict panic. -/
def DQN.Train (d : DQN) (state nextState : List ℚ) (action : Nat) (reward : ℤ)
    (done : Bool) : Option DQN :=
  match d.qNetwork.Predict nextState with
  | none => none
  | some nextQValues =>
    if action < nextQValues.length then
      let target := bellmanTarget nextQValues d.gamma action reward done
      match d.qNetwork.Predict state with
      | none => none
      | some currentQValues =>
        some { d with
          qNetwork := d.qNetwork.Backward state currentQValues target d.learningRate }
    else none

/-- EpsilonGreedyPolicy (train.go): with the `rand.Float64()` draw `rFloat`
below epsilon, a uniform action `rand.Intn(numActions)` from the draw
`rIdx`; otherwise the Argmax of the predicted Q-values. -/
def DQN.EpsilonGreedyPolicy (d : DQN) (state : List ℚ) (numActions : Nat)
    (rFloat : ℚ) (rIdx : Nat) : Option Nat :=
  if rFloat < d.epsilon then randIntn rIdx numActions
  else (d.qNetwork.Predict state).bind Argmax

/-! ### utils.go -/

/-- Running maximum of Normalize (utils.go): `var maxVal float64` starts the
scan at 0, not at the first component. -/
def maxVal0 (state : List ℚ) : ℚ :=
  state.foldl (fun maxVal val => if val > maxVal then val else maxVal) 0

/-- Normalize (utils.go): divides every component by the running maximum
`maxVal0` (which is 0, a division by zero, when no component is positive). -/
def Normalize (state : List ℚ) : List ℚ :=
  state.map (fun x => x / maxVal0 state)

/-! ### Concrete instances used by the counterexamples and witnesses -/

/-- Identity activation. -/
def idAct : ℚ → ℚ := fun x => x

/-- Squaring activation (a differentiable scalar function, as the spec's
data model allows any such activation). -/
def sqAct : ℚ → ℚ := fun x => x * x

/-- A 1-1-1 network with identity activation: w1 = [[1]], b1 = [0],
w2 = [[2]], b2 = [0]. -/
def qC1 : QNetwork :=
  ⟨1, 1, 1, [[1]], [0], [[2]], [0], idAct⟩

/-- A 1-1-1 network with squaring activation: w1 = [[1]], b1 = [0],
w2 = [[1]], b2 = [0]. -/
def qC2 : QNetwork :=
  ⟨1, 1, 1, [[1]], [0], [[1]], [0], sqAct⟩

/-- A 1-1-2 network with identity activation producing equal outputs. -/
def q4 : QNetwork :=
  ⟨1, 1, 2, [[1]], [0], [[1], [1]], [0, 0], idAct⟩

/-- A 1-1-3 network whose outputs are [0, 0, 5]. -/
def q5 : QNetwork :=
  ⟨1, 1, 3, [[0]], [0], [[0], [0], [0]], [0, 0, 5], idAct⟩

/-- A fresh capacity-10 buffer. -/
def rb0 : ReplayBuffer := NewReplayBuffer 10

/-- Agent over q4 with epsilon = 0. -/
def d4 : DQN := ⟨q4, rb0, 9 / 10, 0, 1 / 100⟩

/-- Agent over q5 with epsilon = 0. -/
def d5 : DQN := ⟨q5, rb0, 9 / 10, 0, 1 / 100⟩

/-- Concrete experience A. -/
def expA : Experience := ⟨[1], [2], 1, 1, false⟩

/-- Concrete experience B. -/
def expB : Experience := ⟨[2], [3], 0, 2, false⟩

/-- Concrete experience C. -/
def expC : Experience := ⟨[3], [4], 1, 3, true⟩

/-! ### Helper lemmas -/

theorem getD_set_self (l : List ℚ) (i : Nat) (v : ℚ) (h : i < l.length) :
    (l.set i v).getD i 0 = v := by
  induction l generalizing i with
  | nil => simp at h
  | cons a t ih =>
    cases i with
    | zero => rfl
    | succ n =>
      simp only [List.set_cons_succ, List.getD_cons_succ]
      exact ih n (by simpa using h)

theorem getD_set_ne (l : List ℚ) (i j : Nat) (v : ℚ) (h : i ≠ j) :
    (l.set i v).getD j 0 = l.getD j 0 := by
  induction l generalizing i j with
  | nil => rfl
  | cons a t ih =>
    cases i with
    | zero =>
      cases j with
      | zero => exact absurd rfl h
      | succ m => rfl
    | succ n =>
      cases j with
      | zero => rfl
      | succ m =>
        simp only [List.set_cons_succ, List.getD_cons_succ]
        exact ih n m (fun he => h (by rw [he]))

theorem getD_mem_of_lt {α : Type} (l : List α) (j : Nat) (d : α) (h : j < l.length) :
    l.getD j d ∈ l := by
  induction l generalizing j with
  | nil => simp at h
  | cons a t ih =>
    cases j with
    | zero => simp
    | succ n =>
      simp only [List.getD_cons_succ]
      exact List.mem_cons_of_mem a (ih n (by simpa using h))

theorem argmaxLoop_snd_le (l : List ℚ) : ∀ (i : Nat) (acc : Nat × ℚ),
    acc.2 ≤ (argmaxLoop l i acc).2 := by
  induction l with
  | nil => intro i acc; exact le_rfl
  | cons val rest ih =>
    intro i acc
    simp only [argmaxLoop]
    split
    · exact le_trans (le_of_lt (by assumption)) (ih (i + 1) (i, val))
    · exact ih (i + 1) acc

theorem argmaxLoop_all_le (l : List ℚ) : ∀ (i : Nat) (acc : Nat × ℚ) (k : Nat),
    k < l.length → l.getD k 0 ≤ (argmaxLoop l i acc).2 := by
  induction l with
  | nil => intro i acc k hk; simp at hk
  | cons val rest ih =>
    intro i acc k hk
    simp only [argmaxLoop]
    split
    · cases k with
      | zero => exact argmaxLoop_snd_le rest (i + 1) (i, val)
      | succ n => exact ih (i + 1) (i, val) n (by simpa using hk)
    · cases k with
      | zero =>
        have hle : val ≤ acc.2 := le_of_not_lt (by assumption)
        exact le_trans hle (argmaxLoop_snd_le rest (i + 1) acc)
      | succ n => exact ih (i + 1) acc n (by simpa using hk)

theorem argmaxLoop_cases (l : List ℚ) : ∀ (i : Nat) (acc : Nat × ℚ),
    argmaxLoop l i acc = acc ∨
    ∃ k, k < l.length ∧ (argmaxLoop l i acc).1 = i + k ∧
      (argmaxLoop l i acc).2 = l.getD k 0 ∧ acc.2 < (argmaxLoop l i acc).2 ∧
      ∀ j, j < k → l.getD j 0 < (argmaxLoop l i acc).2 := by
  induction l with
  | nil => intro i acc; exact Or.inl rfl
  | cons val rest ih =>
    intro i acc
    simp only [argmaxLoop]
    split
    · rename_i hgt
      rcases ih (i + 1) (i, val) with heq | ⟨k, hk, h1, h2, h3, h4⟩
      · right
        refine ⟨0, by simp, ?_, ?_, ?_, ?_⟩
        · rw [heq]; simp
        · rw [heq]; rfl
        · rw [heq]; exact hgt
        · intro j hj; omega
      · right
        refine ⟨k + 1, by simpa using hk, by omega, h2, lt_trans hgt h3, ?_⟩
        intro j hj
        cases j with
        | zero => simpa using h3
        | succ m =>
          simp only [List.getD_cons_succ]
          exact h4 m (by omega)
    · rename_i hngt
      rcases ih (i + 1) acc with heq | ⟨k, hk, h1, h2, h3, h4⟩
      · exact Or.inl heq
      · right
        refine ⟨k + 1, by simpa using hk, by omega, h2, h3, ?_⟩
        intro j hj
        cases j with
        | zero => exact lt_of_le_of_lt (le_of_not_lt hngt) h3
        | succ m =>
          simp only [List.getD_cons_succ]
          exact h4 m (by omega)

theorem Argmax_spec (arr : List ℚ) (hne : arr ≠ []) :
    ∃ idx, Argmax arr = some idx ∧ idx < arr.length ∧
      (∀ j, j < arr.length → arr.getD j 0 ≤ arr.getD idx 0) ∧
      ∀ j, j < idx → arr.getD j 0 < arr.getD idx 0 := by
  match arr, hne with
  | a :: rest, _ =>
    have hall := argmaxLoop_all_le (a :: rest) 0 (0, a)
    rcases argmaxLoop_cases (a :: rest) 0 (0, a) with heq | ⟨k, hk, h1, h2, h3, h4⟩
    · refine ⟨0, ?_, by simp, ?_, ?_⟩
      · simp only [Argmax, heq]
      · intro j hj
        have h := hall j hj
        rw [heq] at h
        simpa using h
      · intro j hj; omega
    · refine ⟨k, ?_, hk, ?_, ?_⟩
      · simp only [Argmax, h1, Nat.zero_add]
      · intro j hj
        have h := hall j hj
        rw [h2] at h
        exact h
      · intro j hj
        have h := h4 j hj
        rw [h2] at h
        exact h

theorem foldlMax_le (l : List ℚ) : ∀ init : ℚ,
    init ≤ l.foldl (fun maxVal val => if val > maxVal then val else maxVal) init := by
  induction l with
  | nil => intro init; exact le_rfl
  | cons a t ih =>
    intro init
    simp only [List.foldl_cons]
    by_cases h : a > init
    · rw [if_pos h]; exact le_trans (le_of_lt h) (ih a)
    · rw [if_neg h]; exact ih init

theorem le_foldlMax (l : List ℚ) : ∀ (init x : ℚ), x ∈ l →
    x ≤ l.foldl (fun maxVal val => if val > maxVal then val else maxVal) init := by
  induction l with
  | nil => intro init x hx; simp at hx
  | cons a t ih =>
    intro init x hx
    simp only [List.foldl_cons]
    rcases List.mem_cons.mp hx with rfl | hx'
    · by_cases h : x > init
      · rw [if_pos h]; exact foldlMax_le t x
      · rw [if_neg h]; exact le_trans (le_of_not_lt h) (foldlMax_le t init)
    · exact ih _ x hx'

theorem foldlMax_mem (l : List ℚ) : ∀ init : ℚ,
    l.foldl (fun maxVal val => if val > maxVal then val else maxVal) init = init ∨
    l.foldl (fun maxVal val => if val > maxVal then val else maxVal) init ∈ l := by
  induction l with
  | nil => intro init; exact Or.inl rfl
  | cons a t ih =>
    intro init
    simp only [List.foldl_cons]
    by_cases h : a > init
    · rw [if_pos h]
      rcases ih a with h1 | h1
      · exact Or.inr (by rw [h1]; exact List.mem_cons_self a t)
      · exact Or.inr (List.mem_cons_of_mem a h1)
    · rw [if_neg h]
      rcases ih init with h1 | h1
      · exact Or.inl h1
      · exact Or.inr (List.mem_cons_of_mem a h1)

theorem sampleLoop_nil (rands : Nat → Nat) (n : Nat) (h : 1 ≤ n) :
    sampleLoop [] rands n = none := by
  match n, h with
  | k + 1, _ => simp [sampleLoop, randIntn]

theorem sampleLoop_success (buffer : List Experience) (hne : buffer ≠ [])
    (rands : Nat → Nat) : ∀ n, ∃ l, sampleLoop buffer rands n = some l ∧
      l.length = n ∧ ∀ x ∈ l, x ∈ buffer := by
  have hbl : buffer.length ≠ 0 := fun h => hne (List.length_eq_zero.mp h)
  intro n
  induction n with
  | zero => exact ⟨[], rfl, rfl, by simp⟩
  | succ m ih =>
    obtain ⟨l, hl, hlen, hmem⟩ := ih
    refine ⟨buffer.getD (rands m % buffer.length) defaultExp :: l, ?_, by simp [hlen], ?_⟩
    · simp [sampleLoop, randIntn, hbl, hl]
    · intro x hx
      rcases List.mem_cons.mp hx with rfl | hx'
      · exact getD_mem_of_lt _ _ _ (Nat.mod_lt _ (Nat.pos_of_ne_zero hbl))
      · exact hmem x hx'

theorem Add_inv (rb : ReplayBuffer) (e : Experience) (rb' : ReplayBuffer)
    (hinv : rb.buffer.length ≤ rb.size) (h : rb.Add e = some rb') :
    rb'.size = rb.size ∧ rb'.buffer.length ≤ rb.size := by
  obtain ⟨buf, sz⟩ := rb
  dsimp only at hinv ⊢
  simp only [ReplayBuffer.Add] at h
  by_cases hge : sz ≤ buf.length
  · rw [if_pos hge] at h
    cases buf with
    | nil => exact Option.noConfusion h
    | cons a rest =>
      injection h with h2
      subst h2
      refine ⟨rfl, ?_⟩
      simp only [List.length_append, List.length_cons, List.length_nil] at hinv ⊢
      omega
  · rw [if_neg hge] at h
    injection h with h2
    subst h2
    refine ⟨rfl, ?_⟩
    simp only [List.length_append, List.length_cons, List.length_nil]
    omega

theorem addAll_inv (es : List Experience) : ∀ (rb rb' : ReplayBuffer),
    rb.buffer.length ≤ rb.size → addAll rb es = some rb' →
    rb'.size = rb.size ∧ rb'.buffer.length ≤ rb.size := by
  induction es with
  | nil =>
    intro rb rb' hinv h
    injection h with h2
    subst h2
    exact ⟨rfl, hinv⟩
  | cons e es ih =>
    intro rb rb' hinv h
    simp only [addAll] at h
    cases hadd : rb.Add e with
    | none => rw [hadd] at h; exact Option.noConfusion h
    | some rb1 =>
      rw [hadd] at h
      obtain ⟨hsz, hlen⟩ := Add_inv rb e rb1 hinv hadd
      obtain ⟨hsz', hlen'⟩ := ih rb1 rb' (by rw [hsz]; exact hlen) h
      exact ⟨by rw [hsz', hsz], by rw [← hsz]; exact hlen'⟩

theorem Add_general (rb : ReplayBuffer) (e : Experience) (h1 : 1 ≤ rb.size)
    (h2 : rb.buffer.length ≤ rb.size) :
    ∃ rb', rb.Add e = some rb' ∧ rb'.size = rb.size ∧ rb'.buffer.length ≤ rb.size ∧
      (rb.buffer.length = rb.size → rb'.buffer = rb.buffer.tail ++ [e]) ∧
      (rb.buffer.length < rb.size → rb'.buffer = rb.buffer ++ [e]) := by
  obtain ⟨buf, sz⟩ := rb
  simp only at h1 h2 ⊢
  by_cases hge : sz ≤ buf.length
  · have hlen : buf.length = sz := le_antisymm h2 hge
    cases buf with
    | nil => simp at hlen; omega
    | cons a rest =>
      refine ⟨⟨rest ++ [e], sz⟩, ?_, rfl, ?_, ?_, ?_⟩
      · simp only [ReplayBuffer.Add, if_pos hge]
      · simp only [List.length_append, List.length_cons, List.length_nil] at hlen ⊢
        omega
      · intro _; rfl
      · intro hlt; omega
  · push_neg at hge
    refine ⟨⟨buf ++ [e], sz⟩, ?_, rfl, ?_, ?_, ?_⟩
    · simp only [ReplayBuffer.Add, if_neg (not_le.mpr hge)]
    · simp only [List.length_append, List.length_cons, List.length_nil]
      omega
    · intro heq; omega
    · intro _; rfl

/-! ### Claim theorems -/

/-- C1: the claim says every one of W1, b1, W2, b2 is updated by
p ← p − learningRate·∂Loss/∂p, so learningRate = 0 must be a no-op.  The
code refutes this: on the network qC1 (w1 = [[1]], w2 = [[2]], identity
activation) Backward with learningRate 0 rewrites w2 to [[1]] and w1 to
[[2]] — the gonum Scale call overwrites each weight matrix with
−lr·gradient, so the stored weights become (1−lr)·gradient and the old
values are discarded; only the two bias vectors follow the claimed rule and
stay unchanged at learningRate 0. -/
theorem C1_backward_lr_zero_not_noop :
    (qC1.Backward [1] [1] [0] 0).w2 = [[1]] ∧ qC1.w2 = [[2]] ∧
    (qC1.Backward [1] [1] [0] 0).w1 = [[2]] ∧ qC1.w1 = [[1]] ∧
    (qC1.Backward [1] [1] [0] 0).b1 = qC1.b1 ∧
    (qC1.Backward [1] [1] [0] 0).b2 = qC1.b2 := by
  norm_num [QNetwork.Backward, vecAdd, matVec, dot, vecSub, vecMulElem, vecScale,
    outer, matScale, matAdd, getCol, matTvec, applyDerivative, fdStep, qC1, idAct,
    List.zipWith, List.range_succ]

/-- C2: the claim says the backpropagated hidden error multiplies by the
finite-difference activation derivative evaluated at the PRE-activation
values W1·state + b1.  The code evaluates it at the POST-activation values
(h is activated in place before applyDerivative is called): on qC2
(squaring activation, state [2], prediction [1], target [0],
learningRate 1) the pre-activation is 2 and the post-activation is 4; the
code ends with b1 = [-8] (derivative 8 taken at 4), while the b1 value
prescribed by the claim, computed here from the same source definitions
with the derivative taken at the pre-activation vector, is [-4]. -/
theorem C2_derivative_at_post_activation :
    (qC2.Backward [2] [1] [0] 1).b1 = [(-8 : ℚ)] ∧
    vecSub qC2.b1 (vecScale 1 (vecMulElem (matTvec qC2.w2 (vecSub [1] [0]) qC2.hiddenSize)
      (applyDerivative (vecAdd (matVec qC2.w1 [2]) qC2.b1) qC2.activation))) = [(-4 : ℚ)] := by
  norm_num [QNetwork.Backward, vecAdd, matVec, dot, vecSub, vecMulElem, vecScale,
    outer, matScale, matAdd, getCol, matTvec, applyDerivative, fdStep, qC2, sqAct,
    List.zipWith, List.range_succ]

/-- C3: for every Train call with in-range action, the target passed to the
backward update is the next-state prediction vector with only index
`action` overwritten; that entry is reward when done (independent of gamma
and of the maximum) and reward + gamma·Max(Predict(nextState)) otherwise. -/
theorem C3_train_target (d : DQN) (state nextState : List ℚ) (action : Nat)
    (reward : ℤ) (done : Bool) (nextQ curQ : List ℚ)
    (hnext : d.qNetwork.Predict nextState = some nextQ)
    (hcur : d.qNetwork.Predict state = some curQ)
    (ha : action < nextQ.length) :
    d.Train state nextState action reward done =
      some { d with qNetwork := (d.qNetwork.Backward state curQ
        (bellmanTarget nextQ d.gamma action reward done) d.learningRate) } ∧
    (∀ i, i < nextQ.length → i ≠ action →
      (bellmanTarget nextQ d.gamma action reward done).getD i 0 = nextQ.getD i 0) ∧
    (bellmanTarget nextQ d.gamma action reward done).getD action 0 =
      (if done then (reward : ℚ) else (reward : ℚ) + d.gamma * Max nextQ) := by
  refine ⟨?_, ?_, ?_⟩
  · simp only [DQN.Train, hnext, hcur]
    rw [if_pos ha]
  · intro i hi hne
    cases done with
    | true =>
      show (nextQ.set action (reward : ℚ)).getD i 0 = nextQ.getD i 0
      exact getD_set_ne _ action i _ (Ne.symm hne)
    | false =>
      show (((nextQ.set action (reward : ℚ)).set action
          ((nextQ.set action (reward : ℚ)).getD action 0 + d.gamma * Max nextQ)).getD i 0)
        = nextQ.getD i 0
      exact (getD_set_ne _ action i _ (Ne.symm hne)).trans (getD_set_ne _ action i _ (Ne.symm hne))
  · cases done with
    | true =>
      show (nextQ.set action (reward : ℚ)).getD action 0 = (reward : ℚ)
      exact getD_set_self _ _ _ ha
    | false =>
      show ((nextQ.set action (reward : ℚ)).set action
          ((nextQ.set action (reward : ℚ)).getD action 0 + d.gamma * Max nextQ)).getD action 0
        = (reward : ℚ) + d.gamma * Max nextQ
      rw [getD_set_self _ _ _ (by rw [List.length_set]; exact ha), getD_set_self _ _ _ ha]

/-- Witness for C3: the theorem applied to the agent d4 with state [1],
nextState [2], action 0, reward 5 and done = true gives target entry 5. -/
theorem C3_train_target_witness :
    (bellmanTarget [2, 2] d4.gamma 0 5 true).getD 0 0 = ((5 : ℤ) : ℚ) :=
  (C3_train_target d4 [1] [2] 0 5 true [2, 2] [1, 1]
    (by norm_num [QNetwork.Predict, vecAdd, matVec, dot, d4, q4, idAct, List.zipWith])
    (by norm_num [QNetwork.Predict, vecAdd, matVec, dot, d4, q4, idAct, List.zipWith])
    (by decide)).2.2

/-- C4: with epsilon = 0 the policy is deterministic — for every value of
both random draws (the float draw being nonnegative, as rand.Float64 is)
it returns the Argmax of the predicted Q-values, which is the index of the
maximum with ties broken by the lowest index of a left-to-right scan (a
strictly greater value is required to displace the running maximum). -/
theorem C4_greedy_deterministic (d : DQN) (state : List ℚ) (qs : List ℚ)
    (heps : d.epsilon = 0) (hq : d.qNetwork.Predict state = some qs) (hne : qs ≠ []) :
    ∃ idx, idx < qs.length ∧
      (∀ j, j < qs.length → qs.getD j 0 ≤ qs.getD idx 0) ∧
      (∀ j, j < idx → qs.getD j 0 < qs.getD idx 0) ∧
      ∀ (numActions : Nat) (rFloat : ℚ) (rIdx : Nat), 0 ≤ rFloat →
        d.EpsilonGreedyPolicy state numActions rFloat rIdx = some idx := by
  obtain ⟨idx, hA, h1, h2, h3⟩ := Argmax_spec qs hne
  refine ⟨idx, h1, h2, h3, ?_⟩
  intro numActions rFloat rIdx hr
  have hlt : ¬ rFloat < d.epsilon := by rw [heps]; exact not_lt.mpr hr
  simp only [DQN.EpsilonGreedyPolicy, if_neg hlt, hq, Option.some_bind]
  exact hA

/-- Witness for C4: the agent d4 predicts the tied vector [3, 3], and the
policy with epsilon 0 returns a fixed in-range index for an arbitrary pair
of random draws. -/
theorem C4_greedy_deterministic_witness :
    ∃ idx, d4.EpsilonGreedyPolicy [3] 7 (1 / 2) 5 = some idx ∧ idx < 2 := by
  obtain ⟨idx, h1, _, _, h4⟩ :=
    C4_greedy_deterministic d4 [3] [3, 3] rfl
      (by norm_num [QNetwork.Predict, vecAdd, matVec, dot, d4, q4, idAct, List.zipWith])
      (by simp)
  exact ⟨idx, h4 7 (1 / 2) 5 (by norm_num), h1⟩

/-- C5 counterexample: the agent d5 has outputSize 3 and predicted values
[0, 0, 5]; with numActions = 2 (positive), a valid-length state and the
greedy branch taken, EpsilonGreedyPolicy returns index 2, which is not in
[0, 2) — so the returned index is NOT in range regardless of outputSize. -/
theorem C5_cex : d5.EpsilonGreedyPolicy [1] 2 0 0 = some 2 ∧ ¬ (2 < 2) := by
  norm_num [DQN.EpsilonGreedyPolicy, QNetwork.Predict, vecAdd, matVec, dot, Argmax,
    argmaxLoop, d5, q5, idAct, List.zipWith, Option.some_bind]

/-- C5 amended: the random branch always returns an index in
[0, numActions); the greedy branch returns an index bounded by the length
of the predicted vector (the outputSize), so the result is guaranteed to
lie in [0, numActions) only under the additional hypothesis
outputSize ≤ numActions (with a nonempty prediction). -/
theorem C5_in_range (d : DQN) (state : List ℚ) (numActions : Nat) (rFloat : ℚ)
    (rIdx : Nat) (qs : List ℚ) (hn : 1 ≤ numActions)
    (hq : d.qNetwork.Predict state = some qs) (hne : qs ≠ [])
    (hle : qs.length ≤ numActions) :
    ∃ a, d.EpsilonGreedyPolicy state numActions rFloat rIdx = some a ∧ a < numActions := by
  by_cases hlt : rFloat < d.epsilon
  · refine ⟨rIdx % numActions, ?_, Nat.mod_lt _ hn⟩
    simp only [DQN.EpsilonGreedyPolicy, if_pos hlt, randIntn]
    rw [if_neg (by omega)]
  · obtain ⟨idx, hA, h1, _, _⟩ := Argmax_spec qs hne
    refine ⟨idx, ?_, lt_of_lt_of_le h1 hle⟩
    simp only [DQN.EpsilonGreedyPolicy, if_neg hlt, hq, Option.some_bind]
    exact hA

/-- Witness for the amended C5: with numActions = 3 = outputSize the agent
d5 returns an in-range action. -/
theorem C5_in_range_witness :
    ∃ a, d5.EpsilonGreedyPolicy [1] 3 0 0 = some a ∧ a < 3 :=
  C5_in_range d5 [1] 3 0 0 [0, 0, 5] (by decide)
    (by norm_num [QNetwork.Predict, vecAdd, matVec, dot, d5, q5, idAct, List.zipWith])
    (by simp) (by decide)

/-- C6: for capacity at least 1, Add keeps the length at most the capacity;
an insert at capacity drops exactly the oldest entry and appends the new
one at the back (preserving the order of the remainder), an insert below
capacity merely appends; any sequence of inserts from a fresh buffer stays
within capacity; and concretely inserting A, B, C into a fresh capacity-2
buffer leaves exactly [B, C]. -/
theorem C6_fifo :
    (∀ (rb : ReplayBuffer) (e : Experience), 1 ≤ rb.size → rb.buffer.length ≤ rb.size →
      ∃ rb', rb.Add e = some rb' ∧ rb'.size = rb.size ∧ rb'.buffer.length ≤ rb.size ∧
        (rb.buffer.length = rb.size → rb'.buffer = rb.buffer.tail ++ [e]) ∧
        (rb.buffer.length < rb.size → rb'.buffer = rb.buffer ++ [e])) ∧
    (∀ (capacity : Nat) (es : List Experience) (rb' : ReplayBuffer), 1 ≤ capacity →
      addAll (NewReplayBuffer capacity) es = some rb' → rb'.buffer.length ≤ capacity) ∧
    addAll (NewReplayBuffer 2) [expA, expB, expC] = some ⟨[expB, expC], 2⟩ := by
  refine ⟨Add_general, ?_, rfl⟩
  intro capacity es rb' _ h
  exact (addAll_inv es (NewReplayBuffer capacity) rb' (by simp [NewReplayBuffer]) h).2

/-- Witness for C6: inserting into a full capacity-1 buffer keeps size 1,
evicts the old entry and stores the new one. -/
theorem C6_fifo_witness :
    ∃ rb', ReplayBuffer.Add ⟨[expA], 1⟩ expB = some rb' ∧ rb'.size = 1 ∧
      rb'.buffer.length ≤ 1 ∧ rb'.buffer = [expB] := by
  obtain ⟨rb', h1, h2, h3, h4, _⟩ := C6_fifo.1 ⟨[expA], 1⟩ expB (by decide) (by decide)
  exact ⟨rb', h1, h2, h3, by simpa using h4 rfl⟩

/-- C7 counterexample: the very first Add on a capacity-0 store fails (the
Go code evaluates buffer[1:] on an empty slice, a bounds panic), refuting
the claim that every Add on a capacity-0 store completes without failure. -/
theorem C7_cex : ReplayBuffer.Add (NewReplayBuffer 0) expA = none := rfl

/-- C7 amended: capacity 0 is not a usable configuration — every Add on a
capacity-0 store (whose buffer is empty) fails with the slice-bounds panic
of buffer[1:] on an empty buffer, so no entry is ever stored or evicted. -/
theorem C7_capacity_zero_add_fails (rb : ReplayBuffer) (e : Experience)
    (hsz : rb.size = 0) (hbuf : rb.buffer = []) : rb.Add e = none := by
  obtain ⟨buf, sz⟩ := rb
  dsimp only at hsz hbuf
  subst hsz
  subst hbuf
  rfl

/-- Witness for the amended C7: a concrete failing Add on the capacity-0
store. -/
theorem C7_capacity_zero_add_fails_witness :
    ReplayBuffer.Add (NewReplayBuffer 0) expB = none :=
  C7_capacity_zero_add_fails (NewReplayBuffer 0) expB rfl rfl

/-- C8 counterexample: Sample(0) on an empty store returns an empty batch
successfully — it does not fail — refuting the claim that sampling from an
empty store fails for every k. -/
theorem C8_cex : ReplayBuffer.Sample (NewReplayBuffer 1) 0 (fun r => r) ≠ none := by decide

/-- C8 amended: on an empty store Sample fails for every k ≥ 1 (the
rand.Intn(0) panic; k = 0 returns an empty batch without failing), and on a
nonempty store Sample succeeds for every k — including k larger than the
store size, since draws are with replacement — returning exactly k
transitions, each an element of the current contents. -/
theorem C8_sample_contract (rb : ReplayBuffer) (k : Nat) (rands : Nat → Nat) :
    (rb.buffer = [] → 1 ≤ k → rb.Sample k rands = none) ∧
    rb.Sample 0 rands = some [] ∧
    (rb.buffer ≠ [] → ∃ l, rb.Sample k rands = some l ∧ l.length = k ∧
      ∀ x ∈ l, x ∈ rb.buffer) := by
  refine ⟨?_, rfl, ?_⟩
  · intro hb hk
    show sampleLoop rb.buffer rands k = none
    rw [hb]
    exact sampleLoop_nil rands k hk
  · intro hb
    exact sampleLoop_success rb.buffer hb rands k

/-- Witness for the amended C8: sampling k = 2 from a store holding the
single element expA succeeds with a batch of two copies drawn from the
contents. -/
theorem C8_sample_contract_witness :
    ∃ l, ReplayBuffer.Sample ⟨[expA], 1⟩ 2 (fun r => r) = some l ∧ l.length = 2 ∧
      ∀ x ∈ l, x ∈ [expA] :=
  (C8_sample_contract ⟨[expA], 1⟩ 2 (fun r => r)).2.2 (by decide)

/-- C9 counterexample: on [-1] the maximum of the vector is -1, not 0, so
the claim demands division by -1 (giving [1]); the code divides by its
running maximum 0 instead.  On [0, -1] the maximum of the vector is 0 and
the claim demands the vector back unchanged; the code still divides every
component by zero, and the result differs from the input. -/
theorem C9_cex :
    Normalize [(-1 : ℚ)] ≠ [(-1 : ℚ) / (-1 : ℚ)] ∧
    Normalize [(0 : ℚ), (-1 : ℚ)] ≠ [(0 : ℚ), (-1 : ℚ)] := by
  norm_num [Normalize, maxVal0]

/-- C9 amended: Normalize divides every component by the running maximum
maxVal0, whose scan starts at 0 rather than at the first component: it is
nonnegative, bounds every component, coincides with the maximum of the
vector whenever some component is positive, and is 0 (so every component is
divided by zero, instead of the vector being returned unchanged) whenever
no component is positive. -/
theorem C9_normalize_divides_by_running_max (state : List ℚ) :
    Normalize state = state.map (fun x => x / maxVal0 state) ∧
    0 ≤ maxVal0 state ∧
    (∀ x ∈ state, x ≤ maxVal0 state) ∧
    ((∃ x ∈ state, 0 < x) → maxVal0 state ∈ state) ∧
    ((∀ x ∈ state, x ≤ 0) → maxVal0 state = 0) := by
  refine ⟨rfl, foldlMax_le state 0, ?_, ?_, ?_⟩
  · intro x hx
    exact le_foldlMax state 0 x hx
  · rintro ⟨x, hx, hpos⟩
    rcases foldlMax_mem state 0 with h | h
    · exfalso
      have hle := le_foldlMax state 0 x hx
      rw [h] at hle
      exact absurd (lt_of_lt_of_le hpos hle) (lt_irrefl 0)
    · exact h
  · intro hall
    rcases foldlMax_mem state 0 with h | h
    · exact h
    · exact le_antisymm (hall _ h) (foldlMax_le state 0)

/-- Witness for the amended C9: on [2, -1] the divisor is the maximum of
the vector, an element of it. -/
theorem C9_normalize_witness : maxVal0 [(2 : ℚ), (-1 : ℚ)] ∈ [(2 : ℚ), (-1 : ℚ)] :=
  (C9_normalize_divides_by_running_max [(2 : ℚ), (-1 : ℚ)]).2.2.2.1 ⟨2, by norm_num, by norm_num⟩

/-- C10: Loss on two empty sequences passes the equal-length guard and
returns a value rather than signalling any error, and the divisor of its
final division is the sequence length, which is 0 — the division by the
length is unguarded (in this exact-arithmetic embedding division is total;
in the IEEE semantics of the Go code the zero divisor yields a non-finite
value). -/
theorem C10_loss_empty_unguarded :
    Loss [] [] = some ((List.zipWith (fun p t => (p - t) * (p - t))
        ([] : List ℚ) ([] : List ℚ)).sum / ((([] : List ℚ).length : ℚ))) ∧
    ((([] : List ℚ).length : ℚ)) = 0 ∧ (Loss [] []).isSome = true := by
  refine ⟨rfl, by norm_num, rfl⟩

end Dqn
